import Mathlib

/-!
Verification of a Huffman-coding text codec.

The embedding follows the source program: a frequency table built over the
input with the space character substituted by the sentinel '-', a Huffman
tree built by repeatedly merging the two minimum-frequency nodes of a
min-priority queue, code assignment by depth-first traversal ('0' = left,
'1' = right), an encoder concatenating per-character codes, and a decoder
walking the tree bit by bit, emitting a leaf's character (with the sentinel
mapped back to a space) and resetting to the root.

Machine maps are modelled as association lists in insertion order; the
priority queue as a weight-sorted list; operations whose C++ counterpart can
fail (lookup with `.at`, `top()` on an empty heap, walking into a null
child) return `Option`.
-/

namespace Huffman

/-- The sentinel substitution applied before frequency counting and before
each encoding lookup: a space is replaced by the literal '-'. -/
def subst (c : Char) : Char := if c = ' ' then '-' else c

/-- `frequency[c]++` on an association list: increment the entry of `c`,
inserting a fresh entry with count 1 when absent. -/
def bump : List (Char × Nat) → Char → List (Char × Nat)
  | [], c => [(c, 1)]
  | (d, n) :: rest, c =>
      if d = c then (d, n + 1) :: rest else (d, n) :: bump rest c

/-- The frequency table of the input, with spaces substituted by '-'. -/
def buildFrequencyTable (input : List Char) : List (Char × Nat) :=
  input.foldl (fun m c => bump m (subst c)) []

/-- Huffman tree node: a leaf holds a character and its frequency, an
internal node holds its two children (the source stores the summed
frequency in the node; here it is recomputed by `weight`). -/
inductive HTree where
  | leaf (c : Char) (f : Nat)
  | node (l r : HTree)
deriving DecidableEq, Repr

/-- The frequency stored at a node: a leaf's count, or the sum over an
internal node's subtree. -/
def weight : HTree → Nat
  | .leaf _ f => f
  | .node l r => weight l + weight r

/-- The characters at the leaves of a tree, left to right. -/
def chars : HTree → List Char
  | .leaf c _ => [c]
  | .node l r => chars l ++ chars r

/-- The priority-queue ordering of the source's `Compare`: ascending
node frequency. -/
def wle (s t : HTree) : Prop := weight s ≤ weight t

instance : DecidableRel wle := fun s t => Nat.decLe (weight s) (weight t)

instance : IsTotal HTree wle := ⟨fun s t => Nat.le_total (weight s) (weight t)⟩

instance : IsTrans HTree wle := ⟨fun _ _ _ h h2 => Nat.le_trans h h2⟩

/-- The merge loop of `buildHuffmanTree`: while more than one node remains,
pop the two minimum-frequency nodes, merge them under a fresh internal node
and push the result back.  `none` models the undefined `top()` on an empty
heap.  The loop runs at most `fuel` iterations; each iteration shrinks the
queue by one, so any `fuel` at least the initial queue length is enough. -/
def hmerge : Nat → List HTree → Option HTree
  | _, [] => none
  | _, [t] => some t
  | 0, _ :: _ :: _ => none
  | fuel + 1, a :: b :: rest => hmerge fuel (List.orderedInsert wle (HTree.node a b) rest)

/-- The merge loop started with enough fuel for its queue. -/
def hloop (q : List HTree) : Option HTree := hmerge q.length q

/-- Build the Huffman tree from a frequency table: push a leaf per entry
into the min-heap, then merge until one node remains. -/
def buildHuffmanTree (fl : List (Char × Nat)) : Option HTree :=
  hloop (List.insertionSort wle (fl.map (fun p => HTree.leaf p.1 p.2)))

/-- `generateHuffmanCodes`: depth-first traversal accumulating the code,
appending '0' descending left and '1' descending right, and recording the
accumulated code at each leaf. -/
def generateHuffmanCodes : HTree → List Char → List (Char × List Char)
  | .leaf c _, code => [(c, code)]
  | .node l r, code =>
      generateHuffmanCodes l (code ++ ['0']) ++ generateHuffmanCodes r (code ++ ['1'])

/-- Association-list lookup, modelling `unordered_map::at` (with `none` for
the out-of-range exception). -/
def alookup : List (Char × α) → Char → Option α
  | [], _ => none
  | (d, v) :: rest, c => if d = c then some v else alookup rest c

/-- `encode`: concatenate, in input order, the code of each character
(spaces looked up under the sentinel '-'). -/
def hencode : List Char → List (Char × List Char) → Option (List Char)
  | [], _ => some []
  | c :: cs, cm =>
      match alookup cm (subst c), hencode cs cm with
      | some p, some rest => some (p ++ rest)
      | _, _ => none

/-- Reverse sentinel substitution applied by the decoder when it emits a
leaf's character. -/
def emitChar (c : Char) : Char := if c = '-' then ' ' else c

/-- The decoder's cursor walk: on each bit move to the left child on '0',
otherwise to the right child; on landing on a leaf emit its character and
reset the cursor to the root.  `none` models the null-child dereference
that the source would perform when the cursor is a leaf. -/
def decodeAux (root : HTree) : List Char → HTree → Option (List Char)
  | [], _ => some []
  | _ :: _, .leaf _ _ => none
  | bit :: bs, .node l r =>
      match (if bit = '0' then l else r) with
      | .leaf c _ => (decodeAux root bs root).map (fun out => emitChar c :: out)
      | .node l2 r2 => decodeAux root bs (.node l2 r2)

/-- `decode`: walk the encoded bitstring from the root. -/
def hdecode (t : HTree) (bits : List Char) : Option (List Char) :=
  decodeAux t bits t

/-- The full per-input pipeline of `main`: frequency table, tree, code map,
encode, decode. -/
def huffPipeline (input : List Char) : Option (List Char) :=
  match buildHuffmanTree (buildFrequencyTable input) with
  | none => none
  | some t =>
      match hencode input (generateHuffmanCodes t []) with
      | none => none
      | some bits => hdecode t bits

/-- `main`'s reported original size: input length times 8 bits. -/
def originalSizeBits (input : List Char) : Nat := input.length * 8

end Huffman

namespace Huffman

/-- C1: the round-trip claim fails on the code: for the all-identical input
"aaaa" the pipeline (frequency table, tree, codes, encode, decode) returns
the empty string, not the original input, because the lone symbol's code is
empty. -/
theorem c1_roundtrip_fails_on_aaaa :
    huffPipeline ['a', 'a', 'a', 'a'] = some [] ∧ ([] : List Char) ≠ ['a', 'a', 'a', 'a'] :=
  ⟨rfl, by decide⟩

/-- C2: on input "aaaa" the builder returns the bare single leaf (no
special case), so the code assigner produces the one-entry CodeMap with the
EMPTY code, the encoded bitstring is empty, and decoding yields "" rather
than "aaaa" — contradicting the claim's non-empty code and correct decode. -/
theorem c2_single_symbol_empty_code :
    buildHuffmanTree (buildFrequencyTable ['a', 'a', 'a', 'a']) = some (.leaf 'a' 4)
    ∧ generateHuffmanCodes (.leaf 'a' 4) [] = [('a', [])]
    ∧ huffPipeline ['a', 'a', 'a', 'a'] = some [] :=
  ⟨rfl, rfl, rfl⟩

/-- C3: an empty frequency table reaching the tree builder hits `top()` on
an empty priority queue — undefined behaviour in the source, modelled as
`none`; no InvalidInput error is signalled by the code. -/
theorem c3_empty_table_no_result :
    buildFrequencyTable [] = [] ∧ buildHuffmanTree [] = none :=
  ⟨rfl, rfl⟩

/-- C4: for the tree built from "abc" the bitstring "1" is one bit short of
a complete code ('a' = "10", 'b' = "11"); the decoder returns the empty
output with no error signalled — it silently drops the trailing bit instead
of failing with MalformedBitstring. -/
theorem c4_decoder_truncates_silently :
    buildHuffmanTree (buildFrequencyTable ['a', 'b', 'c'])
      = some (.node (.leaf 'c' 1) (.node (.leaf 'a' 1) (.leaf 'b' 1)))
    ∧ hdecode (.node (.leaf 'c' 1) (.node (.leaf 'a' 1) (.leaf 'b' 1))) ['1'] = some [] :=
  ⟨rfl, rfl⟩

/-- C7: the input "a b" survives the round trip exactly: the space is
substituted by the sentinel '-' before counting and encoding, and the
decoder maps the '-' leaf back to a space. -/
theorem c7_sentinel_roundtrip_a_space_b :
    huffPipeline ['a', ' ', 'b'] = some ['a', ' ', 'b'] :=
  rfl

/-- C10: the compression-ratio division is reachable with a zero divisor:
for input "aaaa" the encoded bitstring is empty (compressed size 0) while
the reported original size is 4 × 8 = 32, and the source divides by the
compressed size with no guard. -/
theorem c10_zero_divisor_reachable :
    buildHuffmanTree (buildFrequencyTable ['a', 'a', 'a', 'a']) = some (.leaf 'a' 4)
    ∧ (hencode ['a', 'a', 'a', 'a'] (generateHuffmanCodes (.leaf 'a' 4) [])).map List.length
        = some 0
    ∧ originalSizeBits ['a', 'a', 'a', 'a'] = 32 :=
  ⟨rfl, rfl, rfl⟩

end Huffman

namespace Huffman

lemma bump_keys (m : List (Char × Nat)) (c : Char) :
    (bump m c).map Prod.fst =
      if c ∈ m.map Prod.fst then m.map Prod.fst else m.map Prod.fst ++ [c] := by
  induction m with
  | nil => simp [bump]
  | cons p rest ih =>
      obtain ⟨d, n⟩ := p
      by_cases h : d = c
      · subst h
        simp [bump]
      · by_cases h2 : c ∈ rest.map Prod.fst
        · simp [bump, h, ih, h2, Ne.symm h]
        · simp [bump, h, ih, h2, Ne.symm h]

lemma bump_sum (m : List (Char × Nat)) (c : Char) :
    ((bump m c).map Prod.snd).sum = (m.map Prod.snd).sum + 1 := by
  induction m with
  | nil => simp [bump]
  | cons p rest ih =>
      obtain ⟨d, n⟩ := p
      by_cases h : d = c <;> simp [bump, h, ih] <;> omega

lemma bump_pos (m : List (Char × Nat)) (c : Char) (hm : ∀ p ∈ m, 0 < p.2) :
    ∀ p ∈ bump m c, 0 < p.2 := by
  induction m with
  | nil => simp [bump]
  | cons p rest ih =>
      obtain ⟨d, n⟩ := p
      by_cases h : d = c
      · subst h
        simp only [bump, if_pos rfl]
        intro q hq
        rcases List.mem_cons.1 hq with h1 | h1
        · subst h1; simp
        · exact hm q (List.mem_cons_of_mem _ h1)
      · simp only [bump, if_neg h]
        intro q hq
        rcases List.mem_cons.1 hq with h1 | h1
        · subst h1; exact hm (d, n) (List.mem_cons_self _ _)
        · exact ih (fun p hp => hm p (List.mem_cons_of_mem _ hp)) q h1

lemma bump_keys_nodup (m : List (Char × Nat)) (c : Char)
    (hm : (m.map Prod.fst).Nodup) : ((bump m c).map Prod.fst).Nodup := by
  rw [bump_keys]
  by_cases h : c ∈ m.map Prod.fst
  · simpa [h] using hm
  · simp [h, List.nodup_append, hm]

lemma bump_keys_mono (m : List (Char × Nat)) (c : Char) :
    m.map Prod.fst ⊆ (bump m c).map Prod.fst := by
  rw [bump_keys]
  by_cases h : c ∈ m.map Prod.fst <;> simp [h, List.subset_append_left]

lemma bump_keys_self (m : List (Char × Nat)) (c : Char) :
    c ∈ (bump m c).map Prod.fst := by
  rw [bump_keys]
  by_cases h : c ∈ m.map Prod.fst <;> simp [h]

lemma foldl_bump_sum (l : List Char) :
    ∀ m : List (Char × Nat),
      (((l.foldl (fun m c => bump m (subst c)) m).map Prod.snd).sum
        = (m.map Prod.snd).sum + l.length) := by
  induction l with
  | nil => intro m; simp
  | cons c cs ih =>
      intro m
      simp only [List.foldl_cons, List.length_cons]
      rw [ih, bump_sum]
      omega

lemma foldl_bump_pos (l : List Char) :
    ∀ m : List (Char × Nat), (∀ p ∈ m, 0 < p.2) →
      ∀ p ∈ l.foldl (fun m c => bump m (subst c)) m, 0 < p.2 := by
  induction l with
  | nil => intro m hm; simpa using hm
  | cons c cs ih =>
      intro m hm
      exact ih _ (bump_pos m (subst c) hm)

lemma foldl_bump_nodup (l : List Char) :
    ∀ m : List (Char × Nat), ((m.map Prod.fst).Nodup) →
      (((l.foldl (fun m c => bump m (subst c)) m).map Prod.fst).Nodup) := by
  induction l with
  | nil => intro m hm; simpa using hm
  | cons c cs ih =>
      intro m hm
      exact ih _ (bump_keys_nodup m (subst c) hm)

lemma foldl_bump_keys_mono (l : List Char) :
    ∀ m : List (Char × Nat),
      m.map Prod.fst ⊆ (l.foldl (fun m c => bump m (subst c)) m).map Prod.fst := by
  induction l with
  | nil => intro m; simp [List.Subset.refl]
  | cons c cs ih =>
      intro m
      exact fun d hd => ih _ (bump_keys_mono m (subst c) hd)

lemma foldl_bump_mem_keys (l : List Char) :
    ∀ m : List (Char × Nat), ∀ c ∈ l,
      subst c ∈ (l.foldl (fun m c => bump m (subst c)) m).map Prod.fst := by
  induction l with
  | nil => intro m c hc; cases hc
  | cons c0 cs ih =>
      intro m c hc
      rcases List.mem_cons.1 hc with h | h
      · subst h
        exact foldl_bump_keys_mono cs _ (bump_keys_self m (subst c))
      · exact ih _ c h

/-- C9: invariants of the frequency table: the counts sum to the input
length, every count is positive, every input character has a
(sentinel-substituted) entry, and the keys are duplicate-free ("exactly one
entry"). -/
theorem c9_frequency_table_invariants (input : List Char) :
    (((buildFrequencyTable input).map Prod.snd).sum = input.length)
    ∧ (∀ p ∈ buildFrequencyTable input, 0 < p.2)
    ∧ (∀ c ∈ input, subst c ∈ (buildFrequencyTable input).map Prod.fst)
    ∧ ((buildFrequencyTable input).map Prod.fst).Nodup := by
  refine ⟨?_, ?_, ?_, ?_⟩
  · simpa using foldl_bump_sum input []
  · exact foldl_bump_pos input [] (by simp)
  · exact fun c hc => foldl_bump_mem_keys input [] c hc
  · exact foldl_bump_nodup input [] (by simp)

/-- Witness for C9 at the concrete input "a a": counts sum to 3 and the
space appears as the sentinel entry. -/
theorem c9_witness :
    (((buildFrequencyTable ['a', ' ', 'a']).map Prod.snd).sum = 3)
    ∧ subst ' ' ∈ (buildFrequencyTable ['a', ' ', 'a']).map Prod.fst :=
  ⟨(c9_frequency_table_invariants ['a', ' ', 'a']).1,
   (c9_frequency_table_invariants ['a', ' ', 'a']).2.2.1 ' ' (by decide)⟩

end Huffman

namespace Huffman

/-- `prefOf p q` holds when the bit string `p` is an initial segment of
`q`. -/
def prefOf : List Char → List Char → Bool
  | [], _ => true
  | _ :: _, [] => false
  | a :: as, b :: bs => a = b && prefOf as bs

lemma prefOf_append_same (pre a b : List Char) :
    prefOf (pre ++ a) (pre ++ b) = prefOf a b := by
  induction pre with
  | nil => rfl
  | cons c cs ih => simp [prefOf, ih]

lemma prefOf_cons_ne {a b : Char} (as bs : List Char) (h : a ≠ b) :
    prefOf (a :: as) (b :: bs) = false := by
  simp [prefOf, h]

lemma genCodes_extends (t : HTree) :
    ∀ (acc : List Char) (c : Char) (p : List Char),
      (c, p) ∈ generateHuffmanCodes t acc → ∃ s, p = acc ++ s := by
  induction t with
  | leaf c0 f =>
      intro acc c p hp
      simp only [generateHuffmanCodes, List.mem_singleton, Prod.mk.injEq] at hp
      exact ⟨[], by simp [hp.2]⟩
  | node l r ihl ihr =>
      intro acc c p hp
      simp only [generateHuffmanCodes, List.mem_append] at hp
      rcases hp with hp | hp
      · obtain ⟨s, rfl⟩ := ihl (acc ++ ['0']) c p hp
        exact ⟨'0' :: s, by simp⟩
      · obtain ⟨s, rfl⟩ := ihr (acc ++ ['1']) c p hp
        exact ⟨'1' :: s, by simp⟩

lemma genCodes_pref_free_aux (t : HTree) :
    ∀ (acc : List Char) (a b : Char) (ca cb : List Char), a ≠ b →
      (a, ca) ∈ generateHuffmanCodes t acc →
      (b, cb) ∈ generateHuffmanCodes t acc →
      prefOf ca cb = false := by
  induction t with
  | leaf c0 f =>
      intro acc a b ca cb hne ha hb
      simp only [generateHuffmanCodes, List.mem_singleton, Prod.mk.injEq] at ha hb
      exact absurd (ha.1.trans hb.1.symm) hne
  | node l r ihl ihr =>
      intro acc a b ca cb hne ha hb
      simp only [generateHuffmanCodes, List.mem_append] at ha hb
      rcases ha with ha | ha <;> rcases hb with hb | hb
      · exact ihl (acc ++ ['0']) a b ca cb hne ha hb
      · obtain ⟨s1, rfl⟩ := genCodes_extends l (acc ++ ['0']) a ca ha
        obtain ⟨s2, rfl⟩ := genCodes_extends r (acc ++ ['1']) b cb hb
        rw [List.append_assoc, List.append_assoc, List.singleton_append,
          List.singleton_append, prefOf_append_same]
        exact prefOf_cons_ne s1 s2 (by decide)
      · obtain ⟨s1, rfl⟩ := genCodes_extends r (acc ++ ['1']) a ca ha
        obtain ⟨s2, rfl⟩ := genCodes_extends l (acc ++ ['0']) b cb hb
        rw [List.append_assoc, List.append_assoc, List.singleton_append,
          List.singleton_append, prefOf_append_same]
        exact prefOf_cons_ne s1 s2 (by decide)
      · exact ihr (acc ++ ['1']) a b ca cb hne ha hb

/-- C5: the code map produced by the code assigner is prefix-free: for any
two distinct symbols in the map, neither one's code is an initial segment
of the other's. -/
theorem c5_code_map_pref_free (t : HTree) (a b : Char) (ca cb : List Char)
    (hne : a ≠ b)
    (ha : (a, ca) ∈ generateHuffmanCodes t [])
    (hb : (b, cb) ∈ generateHuffmanCodes t []) :
    prefOf ca cb = false ∧ prefOf cb ca = false :=
  ⟨genCodes_pref_free_aux t [] a b ca cb hne ha hb,
   genCodes_pref_free_aux t [] b a cb ca (fun h => hne h.symm) hb ha⟩

/-- Witness for C5 on the tree built from "abc": the codes of 'a' ("10")
and 'b' ("11") are mutually non-initial. -/
theorem c5_witness :
    prefOf ['1', '0'] ['1', '1'] = false ∧ prefOf ['1', '1'] ['1', '0'] = false :=
  c5_code_map_pref_free
    (.node (.leaf 'c' 1) (.node (.leaf 'a' 1) (.leaf 'b' 1)))
    'a' 'b' ['1', '0'] ['1', '1'] (by decide) (by decide) (by decide)

end Huffman

namespace Huffman

lemma alookup_mem {α : Type} (cm : List (Char × α)) (c : Char) (v : α)
    (h : alookup cm c = some v) : (c, v) ∈ cm := by
  induction cm with
  | nil => simp [alookup] at h
  | cons p rest ih =>
      obtain ⟨d, w⟩ := p
      by_cases hd : d = c
      · subst hd
        have hwv : w = v := by simpa [alookup] using h
        subst hwv
        exact List.mem_cons_self _ _
      · simp only [alookup, if_neg hd] at h
        exact List.mem_cons_of_mem _ (ih h)

lemma alookup_isSome_of_mem_keys {α : Type} (cm : List (Char × α)) (c : Char)
    (h : c ∈ cm.map Prod.fst) : ∃ v, alookup cm c = some v := by
  induction cm with
  | nil => simp at h
  | cons p rest ih =>
      obtain ⟨d, w⟩ := p
      by_cases hd : d = c
      · exact ⟨w, by simp [alookup, hd]⟩
      · simp only [List.map_cons, List.mem_cons] at h
        rcases h with h | h
        · exact absurd h.symm hd
        · obtain ⟨v, hv⟩ := ih h
          exact ⟨v, by simp [alookup, hd, hv]⟩

lemma alookup_bump_self (m : List (Char × Nat)) (c : Char) :
    (alookup (bump m c) c).getD 0 = (alookup m c).getD 0 + 1 := by
  induction m with
  | nil => simp [bump, alookup]
  | cons p rest ih =>
      obtain ⟨d, n⟩ := p
      by_cases hd : d = c
      · subst hd
        simp [bump, alookup]
      · simp [bump, alookup, hd, ih]

lemma alookup_bump_ne (m : List (Char × Nat)) (c d : Char) (hdc : d ≠ c) :
    alookup (bump m c) d = alookup m d := by
  have hcd : c ≠ d := fun h => hdc h.symm
  induction m with
  | nil => simp [bump, alookup, hcd]
  | cons p rest ih =>
      obtain ⟨e, n⟩ := p
      by_cases he : e = c
      · subst he
        simp [bump, alookup, hcd]
      · simp [bump, alookup, he, ih]

lemma table_lookup_count (l : List Char) :
    ∀ (m : List (Char × Nat)) (d : Char),
      (alookup (l.foldl (fun m c => bump m (subst c)) m) d).getD 0
        = (alookup m d).getD 0 + l.countP (fun c => subst c = d) := by
  induction l with
  | nil => intro m d; simp
  | cons c cs ih =>
      intro m d
      simp only [List.foldl_cons, List.countP_cons]
      by_cases h : subst c = d
      · subst h
        rw [ih, alookup_bump_self]
        simp
        omega
      · rw [ih, alookup_bump_ne m (subst c) d (fun hh => h hh.symm)]
        simp [h]

lemma genCodes_keys (t : HTree) : ∀ acc, (generateHuffmanCodes t acc).map Prod.fst = chars t := by
  induction t with
  | leaf c f => intro acc; simp [generateHuffmanCodes, chars]
  | node l r ihl ihr => intro acc; simp [generateHuffmanCodes, chars, ihl, ihr]

lemma genCodes_shift (t : HTree) :
    ∀ acc, generateHuffmanCodes t acc
      = (generateHuffmanCodes t []).map (fun q => (q.1, acc ++ q.2)) := by
  induction t with
  | leaf c f => intro acc; simp [generateHuffmanCodes]
  | node l r ihl ihr =>
      intro acc
      rw [generateHuffmanCodes, ihl (acc ++ ['0']), ihr (acc ++ ['1'])]
      rw [generateHuffmanCodes, List.nil_append, List.nil_append, ihl ['0'], ihr ['1']]
      simp [List.map_map, Function.comp_def, List.append_assoc]

lemma mem_genCodes_node (l r : HTree) (c : Char) (p : List Char) :
    (c, p) ∈ generateHuffmanCodes (.node l r) []
      ↔ (∃ s, p = '0' :: s ∧ (c, s) ∈ generateHuffmanCodes l [])
        ∨ (∃ s, p = '1' :: s ∧ (c, s) ∈ generateHuffmanCodes r []) := by
  rw [generateHuffmanCodes, List.nil_append, List.nil_append,
    genCodes_shift l ['0'], genCodes_shift r ['1']]
  simp only [List.mem_append, List.mem_map, Prod.mk.injEq, List.singleton_append]
  constructor
  · rintro (⟨⟨c0, s⟩, hs, rfl, hp⟩ | ⟨⟨c0, s⟩, hs, rfl, hp⟩)
    · exact Or.inl ⟨s, hp.symm, hs⟩
    · exact Or.inr ⟨s, hp.symm, hs⟩
  · rintro (⟨s, hp, hs⟩ | ⟨s, hp, hs⟩)
    · exact Or.inl ⟨(c, s), hs, rfl, hp.symm⟩
    · exact Or.inr ⟨(c, s), hs, rfl, hp.symm⟩

lemma path_nil_leaf (t : HTree) (c : Char)
    (h : (c, []) ∈ generateHuffmanCodes t []) : ∃ f, t = .leaf c f := by
  cases t with
  | leaf c0 f =>
      simp only [generateHuffmanCodes, List.mem_singleton, Prod.mk.injEq] at h
      exact ⟨f, by rw [h.1]⟩
  | node l r =>
      rw [mem_genCodes_node] at h
      rcases h with ⟨s, hs, _⟩ | ⟨s, hs, _⟩ <;> simp at hs

lemma path_cons_node (t : HTree) (c : Char) (p : List Char)
    (h : (c, p) ∈ generateHuffmanCodes t []) (hne : p ≠ []) : ∃ l r, t = .node l r := by
  cases t with
  | leaf c0 f =>
      simp only [generateHuffmanCodes, List.mem_singleton, Prod.mk.injEq] at h
      exact absurd h.2 hne
  | node l r => exact ⟨l, r, rfl⟩

end Huffman

namespace Huffman

lemma decode_walk (root : HTree) (t : HTree) :
    ∀ (c : Char) (p rest : List Char),
      (c, p) ∈ generateHuffmanCodes t [] → p ≠ [] →
      decodeAux root (p ++ rest) t
        = (decodeAux root rest root).map (fun out => emitChar c :: out) := by
  induction t with
  | leaf c0 f =>
      intro c p rest hp hne
      simp only [generateHuffmanCodes, List.mem_singleton, Prod.mk.injEq] at hp
      exact absurd hp.2 hne
  | node l r ihl ihr =>
      intro c p rest hp _
      rw [mem_genCodes_node] at hp
      rcases hp with ⟨s, rfl, hs⟩ | ⟨s, rfl, hs⟩
      · cases s with
        | nil =>
            obtain ⟨f, rfl⟩ := path_nil_leaf l c hs
            rfl
        | cons s0 s1 =>
            obtain ⟨l2, r2, rfl⟩ := path_cons_node l c _ hs (by simp)
            have hstep :
                decodeAux root (('0' :: (s0 :: s1)) ++ rest) (HTree.node (HTree.node l2 r2) r)
                  = decodeAux root ((s0 :: s1) ++ rest) (HTree.node l2 r2) := rfl
            rw [hstep]
            exact ihl c (s0 :: s1) rest hs (by simp)
      · cases s with
        | nil =>
            obtain ⟨f, rfl⟩ := path_nil_leaf r c hs
            rfl
        | cons s0 s1 =>
            obtain ⟨l2, r2, rfl⟩ := path_cons_node r c _ hs (by simp)
            have hstep :
                decodeAux root (('1' :: (s0 :: s1)) ++ rest) (HTree.node l (HTree.node l2 r2))
                  = decodeAux root ((s0 :: s1) ++ rest) (HTree.node l2 r2) := rfl
            rw [hstep]
            exact ihr c (s0 :: s1) rest hs (by simp)

lemma encode_decode_node (l0 r0 : HTree) :
    ∀ input : List Char,
      (∀ c ∈ input, subst c ∈ chars (HTree.node l0 r0)) →
      ∃ bits, hencode input (generateHuffmanCodes (HTree.node l0 r0) []) = some bits
        ∧ hdecode (HTree.node l0 r0) bits
            = some (input.map (fun c => emitChar (subst c))) := by
  intro input
  induction input with
  | nil => intro _; exact ⟨[], rfl, rfl⟩
  | cons c cs ih =>
      intro h
      obtain ⟨bits, henc, hdec⟩ := ih (fun d hd => h d (List.mem_cons_of_mem _ hd))
      have hk : subst c ∈ (generateHuffmanCodes (HTree.node l0 r0) []).map Prod.fst := by
        rw [genCodes_keys]
        exact h c (List.mem_cons_self _ _)
      obtain ⟨p, hp⟩ := alookup_isSome_of_mem_keys _ _ hk
      have hmem := alookup_mem _ _ _ hp
      have hpne : p ≠ [] := by
        rw [mem_genCodes_node] at hmem
        rcases hmem with ⟨s, rfl, _⟩ | ⟨s, rfl, _⟩ <;> simp
      refine ⟨p ++ bits, ?_, ?_⟩
      · simp [hencode, hp, henc]
      · show decodeAux (HTree.node l0 r0) (p ++ bits) (HTree.node l0 r0) = _
        rw [decode_walk (HTree.node l0 r0) (HTree.node l0 r0) (subst c) p bits hmem hpne]
        rw [show decodeAux (HTree.node l0 r0) bits (HTree.node l0 r0)
            = hdecode (HTree.node l0 r0) bits from rfl, hdec]
        rfl

lemma hmerge_single (fuel : Nat) (t : HTree) : hmerge fuel [t] = some t := by
  cases fuel <;> rfl

lemma hmerge_chars : ∀ (fuel : Nat) (q : List HTree) (t : HTree),
    hmerge fuel q = some t → ∀ c, (c ∈ chars t ↔ ∃ u ∈ q, c ∈ chars u) := by
  intro fuel
  induction fuel with
  | zero =>
      intro q t ht c
      match q with
      | [] => simp [hmerge] at ht
      | [u] =>
          simp only [hmerge, Option.some.injEq] at ht
          subst ht
          simp
      | a :: b :: rest => simp [hmerge] at ht
  | succ f ih =>
      intro q t ht c
      match q with
      | [] => simp [hmerge] at ht
      | [u] =>
          simp only [hmerge, Option.some.injEq] at ht
          subst ht
          simp
      | a :: b :: rest =>
          have ht' : hmerge f (List.orderedInsert wle (HTree.node a b) rest) = some t := ht
          rw [ih _ t ht' c]
          constructor
          · rintro ⟨u, hu, hc⟩
            rw [List.mem_orderedInsert] at hu
            rcases hu with rfl | hu
            · rcases List.mem_append.1 hc with hc | hc
              · exact ⟨a, by simp, hc⟩
              · exact ⟨b, by simp, hc⟩
            · exact ⟨u, by simp [hu], hc⟩
          · rintro ⟨u, hu, hc⟩
            rcases List.mem_cons.1 hu with rfl | hu
            · exact ⟨HTree.node u b, by rw [List.mem_orderedInsert]; exact Or.inl rfl,
                List.mem_append.2 (Or.inl hc)⟩
            · rcases List.mem_cons.1 hu with rfl | hu
              · exact ⟨HTree.node a u, by rw [List.mem_orderedInsert]; exact Or.inl rfl,
                  List.mem_append.2 (Or.inr hc)⟩
              · exact ⟨u, by rw [List.mem_orderedInsert]; exact Or.inr hu, hc⟩

lemma hmerge_node_of_two : ∀ (fuel : Nat) (q : List HTree) (t : HTree),
    hmerge fuel q = some t → 2 ≤ q.length → ∃ l r, t = .node l r := by
  intro fuel
  induction fuel with
  | zero =>
      intro q t ht h2
      match q with
      | [] => simp at h2
      | [u] => simp at h2
      | a :: b :: rest => simp [hmerge] at ht
  | succ f ih =>
      intro q t ht h2
      match q with
      | [] => simp at h2
      | [u] => simp at h2
      | a :: b :: [] =>
          have : hmerge f [HTree.node a b] = some t := ht
          rw [hmerge_single] at this
          exact ⟨a, b, (Option.some.inj this).symm⟩
      | a :: b :: u :: us =>
          have ht' : hmerge f (List.orderedInsert wle (HTree.node a b) (u :: us)) = some t := ht
          have hlen : 2 ≤ (List.orderedInsert wle (HTree.node a b) (u :: us)).length := by
            rw [List.orderedInsert_length]
            simp
          exact ih _ t ht' hlen

lemma hmerge_some : ∀ (fuel : Nat) (q : List HTree),
    q ≠ [] → q.length ≤ fuel + 1 → ∃ t, hmerge fuel q = some t := by
  intro fuel
  induction fuel with
  | zero =>
      intro q hne hlen
      match q with
      | [] => exact absurd rfl hne
      | [u] => exact ⟨u, rfl⟩
      | a :: b :: rest => simp at hlen
  | succ f ih =>
      intro q hne hlen
      match q with
      | [] => exact absurd rfl hne
      | [u] => exact ⟨u, rfl⟩
      | a :: b :: rest =>
          have h1 : (List.orderedInsert wle (HTree.node a b) rest) ≠ [] := by
            have := List.orderedInsert_length wle rest (HTree.node a b)
            intro hq
            rw [hq] at this
            simp at this
          have h2 : (List.orderedInsert wle (HTree.node a b) rest).length ≤ f + 1 := by
            rw [List.orderedInsert_length]
            simp only [List.length_cons] at hlen
            omega
          exact ih _ h1 h2

end Huffman

namespace Huffman

lemma emitChar_subst (c : Char) : emitChar (subst c) = if c = '-' then ' ' else c := by
  by_cases h1 : c = ' '
  · subst h1; rfl
  · by_cases h2 : c = '-'
    · subst h2; rfl
    · simp [subst, emitChar, h1, h2]

lemma countP_ext (l : List Char) (p q : Char → Bool) (h : ∀ c, p c = q c) :
    l.countP p = l.countP q := by
  have : p = q := funext h
  rw [this]

/-- C8 fails as stated: the input "-" contains a literal '-', yet the
decoded output is empty (the lone symbol's code is empty), so the '-' does
not appear as a space in the decoded output. -/
theorem c8_counterexample :
    huffPipeline ['-'] = some []
    ∧ List.map (fun c => if c = '-' then ' ' else c) ['-'] = [' ']
    ∧ ([] : List Char) ≠ [' '] :=
  ⟨rfl, rfl, by decide⟩

/-- C8 (amended): for an input containing '-' whose merged frequency table
has at least two entries, literal '-' and space occurrences are counted in
the single '-' entry, the pipeline succeeds, and the decoded output is the
input with every '-' turned into a space (in particular no '-' survives). -/
theorem c8_sentinel_merge_and_decode (input : List Char) (_hdash : '-' ∈ input)
    (h2 : 2 ≤ (buildFrequencyTable input).length) :
    ((alookup (buildFrequencyTable input) '-').getD 0
        = input.countP (fun c => c = '-' || c = ' '))
    ∧ ∃ out, huffPipeline input = some out
        ∧ out = input.map (fun c => if c = '-' then ' ' else c)
        ∧ '-' ∉ out := by
  constructor
  · have hc := table_lookup_count input [] '-'
    simp only [alookup, Option.getD_none] at hc
    rw [buildFrequencyTable, hc]
    have : (input.countP (fun c => subst c = '-'))
        = input.countP (fun c => c = '-' || c = ' ') := by
      refine countP_ext input _ _ (fun c => ?_)
      by_cases h1 : c = ' '
      · subst h1; rfl
      · by_cases hm : c = '-'
        · subst hm; rfl
        · simp [subst, h1, hm]
    omega
  · have hq0 : 2 ≤ (List.insertionSort wle
        ((buildFrequencyTable input).map (fun p => HTree.leaf p.1 p.2))).length := by
      rw [List.length_insertionSort, List.length_map]
      exact h2
    obtain ⟨t, ht⟩ := hmerge_some
      (List.insertionSort wle
        ((buildFrequencyTable input).map (fun p => HTree.leaf p.1 p.2))).length
      (List.insertionSort wle
        ((buildFrequencyTable input).map (fun p => HTree.leaf p.1 p.2)))
      (by intro hnil; rw [hnil] at hq0; simp at hq0)
      (Nat.le_succ_of_le (Nat.le_refl _))
    have hb : buildHuffmanTree (buildFrequencyTable input) = some t := ht
    obtain ⟨l0, r0, rfl⟩ := hmerge_node_of_two _ _ _ ht hq0
    have hchars : ∀ c ∈ input, subst c ∈ chars (HTree.node l0 r0) := by
      intro c hc
      have hk : subst c ∈ (buildFrequencyTable input).map Prod.fst :=
        foldl_bump_mem_keys input [] c hc
      rw [List.mem_map] at hk
      obtain ⟨p, hp, hpc⟩ := hk
      rw [hmerge_chars _ _ _ ht (subst c)]
      refine ⟨HTree.leaf p.1 p.2, ?_, by simp [chars, hpc]⟩
      rw [List.mem_insertionSort, List.mem_map]
      exact ⟨p, hp, rfl⟩
    obtain ⟨bits, hencEq, hdecEq⟩ := encode_decode_node l0 r0 input hchars
    refine ⟨input.map (fun c => if c = '-' then ' ' else c), ?_, rfl, ?_⟩
    · rw [huffPipeline, hb]
      show (match hencode input (generateHuffmanCodes (HTree.node l0 r0) []) with
            | none => none
            | some bs => hdecode (HTree.node l0 r0) bs)
          = some (List.map (fun c => if c = '-' then ' ' else c) input)
      rw [hencEq]
      show hdecode (HTree.node l0 r0) bits = _
      rw [hdecEq]
      have hmapeq : input.map (fun c => emitChar (subst c))
          = input.map (fun c => if c = '-' then ' ' else c) :=
        List.map_congr_left (fun c _ => emitChar_subst c)
      rw [hmapeq]
    · intro hmem
      rw [List.mem_map] at hmem
      obtain ⟨c, _, hc⟩ := hmem
      by_cases h : c = '-'
      · rw [if_pos h] at hc
        exact absurd hc (by decide)
      · rw [if_neg h] at hc
        exact h hc

/-- Witness for C8 (amended) at the concrete input "-a": the '-' entry
counts one occurrence and the pipeline decodes to " a". -/
theorem c8_witness :
    ((alookup (buildFrequencyTable ['-', 'a']) '-').getD 0
        = (['-', 'a'].countP (fun c => c = '-' || c = ' ')))
    ∧ ∃ out, huffPipeline ['-', 'a'] = some out
        ∧ out = ['-', 'a'].map (fun c => if c = '-' then ' ' else c)
        ∧ '-' ∉ out :=
  c8_sentinel_merge_and_decode ['-', 'a'] (by decide) (by decide)

end Huffman

namespace Huffman

/-- Depth of the (first) leaf carrying `c`, when present. -/
def cdepth (c : Char) : HTree → Option Nat
  | .leaf d _ => if d = c then some 0 else none
  | .node l r =>
      match cdepth c l with
      | some k => some (k + 1)
      | none =>
          match cdepth c r with
          | some k => some (k + 1)
          | none => none

/-- Every leaf frequency is positive (true of trees built from a frequency
table, whose counts are positive). -/
def posTree : HTree → Prop
  | .leaf _ f => 1 ≤ f
  | .node l r => posTree l ∧ posTree r

/-- Weight of the head of the queue: for a sorted queue, its minimum. -/
def headW : List HTree → Nat
  | [] => 0
  | t :: _ => weight t

/-- The trees of the queue carry pairwise disjoint character sets. -/
def DisjQ (q : List HTree) : Prop :=
  q.Pairwise (fun s t => ∀ c ∈ chars s, c ∉ chars t)

/-- Past merges never exceed the weight of the next merge: every internal
tree of the queue weighs at most the sum of the two minima. -/
def wInv : List HTree → Prop
  | a :: b :: rest =>
      ∀ u ∈ a :: b :: rest, (∃ l r, u = HTree.node l r) → weight u ≤ weight a + weight b
  | _ => True

/-- The inductive invariant tying a pair of characters `x`, `y` (with
`freq x > freq y` initially) to the queue: either they share a tree with
`x` at most as deep as `y`, or they sit in different trees whose depths and
weights satisfy the ordering constraints preserved by each merge. -/
def pairInv (x y : Char) (q : List HTree) : Prop :=
  (∃ t ∈ q, ∃ dx dy, cdepth x t = some dx ∧ cdepth y t = some dy ∧ dx ≤ dy)
  ∨ (∃ tx ∈ q, ∃ ty ∈ q, ∃ dx dy,
      cdepth x tx = some dx ∧ cdepth y ty = some dy ∧
      y ∉ chars tx ∧ x ∉ chars ty ∧
      dx ≤ dy ∧
      (dy = dx → weight ty < weight tx) ∧
      (dy = dx + 1 → weight ty < weight tx + headW q))

lemma mem_of_cdepth_some {c : Char} : ∀ {t : HTree} {d : Nat},
    cdepth c t = some d → c ∈ chars t := by
  intro t
  induction t with
  | leaf e f =>
      intro d h
      by_cases he : e = c
      · subst he; simp [chars]
      · simp [cdepth, he] at h
  | node l r ihl ihr =>
      intro d h
      rw [cdepth] at h
      rcases hl : cdepth c l with _ | k
      · rw [hl] at h
        rcases hr : cdepth c r with _ | k2
        · rw [hr] at h; exact absurd h (by simp)
        · exact List.mem_append.2 (Or.inr (ihr hr))
      · exact List.mem_append.2 (Or.inl (ihl hl))

lemma cdepth_none_of_not_mem {c : Char} : ∀ {t : HTree},
    c ∉ chars t → cdepth c t = none := by
  intro t
  induction t with
  | leaf e f =>
      intro h
      have : e ≠ c := by
        intro he; exact h (by simp [chars, he])
      simp [cdepth, this]
  | node l r ihl ihr =>
      intro h
      have hl : c ∉ chars l := fun hc => h (List.mem_append.2 (Or.inl hc))
      have hr : c ∉ chars r := fun hc => h (List.mem_append.2 (Or.inr hc))
      rw [cdepth, ihl hl, ihr hr]

lemma cdepth_some_of_mem {c : Char} : ∀ {t : HTree},
    c ∈ chars t → ∃ d, cdepth c t = some d := by
  intro t
  induction t with
  | leaf e f =>
      intro h
      have hce : c = e := by simpa [chars] using h
      exact ⟨0, by simp [cdepth, hce.symm]⟩
  | node l r ihl ihr =>
      intro h
      rcases hl : cdepth c l with _ | k
      · have hcl : c ∉ chars l := by
          intro hc
          obtain ⟨d, hd⟩ := ihl hc
          rw [hd] at hl; cases hl
        have hcr : c ∈ chars r := by
          rcases List.mem_append.1 h with h | h
          · exact absurd h hcl
          · exact h
        obtain ⟨d, hd⟩ := ihr hcr
        exact ⟨d + 1, by rw [cdepth, hl, hd]⟩
      · exact ⟨k + 1, by rw [cdepth, hl]⟩

lemma cdepth_node_left {c : Char} {l r : HTree} {d : Nat}
    (h : cdepth c l = some d) : cdepth c (.node l r) = some (d + 1) := by
  rw [cdepth, h]

lemma cdepth_node_right {c : Char} {l r : HTree} {d : Nat}
    (hnl : c ∉ chars l) (h : cdepth c r = some d) :
    cdepth c (.node l r) = some (d + 1) := by
  rw [cdepth, cdepth_none_of_not_mem hnl, h]

lemma cdepth_leaf_eq_zero {c e : Char} {f d : Nat}
    (h : cdepth c (.leaf e f) = some d) : d = 0 := by
  by_cases he : e = c
  · simp [cdepth, he] at h
    omega
  · simp [cdepth, he] at h

lemma node_of_cdepth_pos {c : Char} {t : HTree} {d : Nat}
    (h : cdepth c t = some d) (hd : 1 ≤ d) : ∃ l r, t = .node l r := by
  cases t with
  | leaf e f =>
      have := cdepth_leaf_eq_zero h
      omega
  | node l r => exact ⟨l, r, rfl⟩

lemma weight_pos : ∀ {t : HTree}, posTree t → 1 ≤ weight t := by
  intro t
  induction t with
  | leaf c f => intro h; exact h
  | node l r ihl ihr =>
      intro h
      have := ihl h.1
      rw [weight]
      omega

lemma headW_min {q : List HTree} (hs : List.Sorted wle q) {u : HTree} (hu : u ∈ q) :
    headW q ≤ weight u := by
  cases q with
  | nil => cases hu
  | cons h rest =>
      rcases List.mem_cons.1 hu with rfl | hu
      · exact Nat.le_refl _
      · exact List.rel_of_sorted_cons hs u hu

lemma headW_ge {q : List HTree} {m : Nat} (hne : q ≠ [])
    (h : ∀ u ∈ q, m ≤ weight u) : m ≤ headW q := by
  cases q with
  | nil => exact absurd rfl hne
  | cons t rest => exact h t (List.mem_cons_self _ _)

end Huffman

namespace Huffman

lemma disjRel_symmetric :
    Symmetric (fun s t : HTree => ∀ c ∈ chars s, c ∉ chars t) :=
  fun _ _ h c hct hcs => h c hcs hct

lemma step_sorted (a b : HTree) (rest : List HTree)
    (hs : List.Sorted wle (a :: b :: rest)) :
    List.Sorted wle (List.orderedInsert wle (HTree.node a b) rest) :=
  List.Sorted.orderedInsert (HTree.node a b) rest (hs.of_cons.of_cons)

lemma step_pos (a b : HTree) (rest : List HTree)
    (hpos : ∀ t ∈ a :: b :: rest, posTree t) :
    ∀ t ∈ List.orderedInsert wle (HTree.node a b) rest, posTree t := by
  intro t ht
  rw [List.mem_orderedInsert] at ht
  rcases ht with rfl | ht
  · exact ⟨hpos a (by simp), hpos b (by simp)⟩
  · exact hpos t (by simp [ht])

lemma step_disj (a b : HTree) (rest : List HTree)
    (hdisj : DisjQ (a :: b :: rest)) :
    DisjQ (List.orderedInsert wle (HTree.node a b) rest) := by
  have hperm := (List.perm_orderedInsert wle (HTree.node a b) rest).symm
  obtain ⟨ha, hbtail⟩ := List.pairwise_cons.1 hdisj
  obtain ⟨hb, htail⟩ := List.pairwise_cons.1 hbtail
  refine List.Perm.pairwise hperm ?_ (fun hxy c hct hcs => hxy c hcs hct)
  refine List.pairwise_cons.2 ⟨?_, htail⟩
  intro u hu c hc
  rcases List.mem_append.1 hc with hc | hc
  · exact ha u (List.mem_cons_of_mem _ hu) c hc
  · exact hb u hu c hc

lemma step_nodup_chars (a b : HTree) (rest : List HTree)
    (hnd : ∀ t ∈ a :: b :: rest, (chars t).Nodup)
    (hdisj : DisjQ (a :: b :: rest)) :
    ∀ t ∈ List.orderedInsert wle (HTree.node a b) rest, (chars t).Nodup := by
  intro t ht
  rw [List.mem_orderedInsert] at ht
  rcases ht with rfl | ht
  · show (chars a ++ chars b).Nodup
    refine List.Nodup.append (hnd a (by simp)) (hnd b (by simp)) ?_
    obtain ⟨ha, _⟩ := List.pairwise_cons.1 hdisj
    exact ha b (by simp)
  · exact hnd t (by simp [ht])

lemma step_winv (a b : HTree) (rest : List HTree)
    (hs : List.Sorted wle (a :: b :: rest))
    (hw : wInv (a :: b :: rest)) :
    wInv (List.orderedInsert wle (HTree.node a b) rest) := by
  have hge : ∀ v ∈ List.orderedInsert wle (HTree.node a b) rest, weight b ≤ weight v := by
    intro v hv
    rw [List.mem_orderedInsert] at hv
    rcases hv with rfl | hv
    · show weight b ≤ weight a + weight b
      omega
    · exact List.rel_of_sorted_cons hs.of_cons v hv
  have hmem : ∀ u, u ∈ List.orderedInsert wle (HTree.node a b) rest →
      u = HTree.node a b ∨ u ∈ rest := by
    intro u hu
    rw [List.mem_orderedInsert] at hu
    exact hu
  have hab : weight a ≤ weight b := List.rel_of_sorted_cons hs b (by simp)
  cases hq1 : List.orderedInsert wle (HTree.node a b) rest with
  | nil => trivial
  | cons h1 t1 =>
      cases ht1 : t1 with
      | nil => trivial
      | cons h2 t2 =>
          show ∀ u ∈ h1 :: h2 :: t2, (∃ l r, u = HTree.node l r) →
            weight u ≤ weight h1 + weight h2
          intro u hu hint
          have hu0 : u ∈ List.orderedInsert wle (HTree.node a b) rest := by
            rw [hq1, ht1]; exact hu
          have hh1 : weight b ≤ weight h1 := by
            refine hge h1 ?_
            rw [hq1]; exact List.mem_cons_self _ _
          have hh2 : weight b ≤ weight h2 := by
            refine hge h2 ?_
            rw [hq1, ht1]; simp
          have hub : weight u ≤ weight a + weight b := by
            rcases hmem u hu0 with rfl | hu1
            · exact Nat.le_refl _
            · exact hw u (by simp [hu1]) hint
          omega

end Huffman

namespace Huffman

lemma step_pairInv (x y : Char) (a b : HTree) (rest : List HTree)
    (hs : List.Sorted wle (a :: b :: rest))
    (hpos : ∀ t ∈ a :: b :: rest, posTree t)
    (hdisj : DisjQ (a :: b :: rest))
    (hw : wInv (a :: b :: rest))
    (hpi : pairInv x y (a :: b :: rest)) :
    pairInv x y (List.orderedInsert wle (HTree.node a b) rest) := by
  have hab : weight a ≤ weight b := List.rel_of_sorted_cons hs b (by simp)
  have hbrest : ∀ u ∈ rest, weight b ≤ weight u :=
    fun u hu => List.rel_of_sorted_cons hs.of_cons u hu
  have hNmem : HTree.node a b ∈ List.orderedInsert wle (HTree.node a b) rest := by
    rw [List.mem_orderedInsert]
    exact Or.inl rfl
  have hrest_mem : ∀ u ∈ rest, u ∈ List.orderedInsert wle (HTree.node a b) rest := by
    intro u hu
    rw [List.mem_orderedInsert]
    exact Or.inr hu
  have hq'_ge_b : ∀ u ∈ List.orderedInsert wle (HTree.node a b) rest,
      weight b ≤ weight u := by
    intro u hu
    rw [List.mem_orderedInsert] at hu
    rcases hu with rfl | hu
    · show weight b ≤ weight a + weight b
      omega
    · exact hbrest u hu
  have hheadq' : weight b ≤ headW (List.orderedInsert wle (HTree.node a b) rest) := by
    refine headW_ge ?_ hq'_ge_b
    intro h0
    rw [h0] at hNmem
    cases hNmem
  have hwb1 : 1 ≤ weight b := weight_pos (hpos b (by simp))
  obtain ⟨hdA, hdB'⟩ := List.pairwise_cons.1 hdisj
  obtain ⟨hdB, _⟩ := List.pairwise_cons.1 hdB'
  have hdab : ∀ c ∈ chars a, c ∉ chars b := hdA b (by simp)
  have hdar : ∀ u ∈ rest, ∀ c ∈ chars a, c ∉ chars u := fun u hu => hdA u (by simp [hu])
  have hdbr : ∀ u ∈ rest, ∀ c ∈ chars b, c ∉ chars u := hdB
  rcases hpi with ⟨t, htq, dx, dy, hdx, hdy, hle⟩ |
    ⟨tx, htx, ty, hty, dx, dy, hdx, hdy, hyntx, hxnty, hle, heq, hb2⟩
  · -- x and y already share a tree
    rcases List.mem_cons.1 htq with rfl | htq2
    · exact Or.inl ⟨HTree.node t b, hNmem, dx + 1, dy + 1,
        cdepth_node_left hdx, cdepth_node_left hdy, Nat.succ_le_succ hle⟩
    · rcases List.mem_cons.1 htq2 with rfl | htq3
      · have hxa : x ∉ chars a := fun hxa => hdab x hxa (mem_of_cdepth_some hdx)
        have hya : y ∉ chars a := fun hya => hdab y hya (mem_of_cdepth_some hdy)
        exact Or.inl ⟨HTree.node a t, hNmem, dx + 1, dy + 1,
          cdepth_node_right hxa hdx, cdepth_node_right hya hdy, Nat.succ_le_succ hle⟩
      · exact Or.inl ⟨t, hrest_mem t htq3, dx, dy, hdx, hdy, hle⟩
  · -- x and y in different trees
    have hxtx : x ∈ chars tx := mem_of_cdepth_some hdx
    have hyty : y ∈ chars ty := mem_of_cdepth_some hdy
    have hb2w : dy = dx + 1 → weight ty < weight tx + weight a := by
      intro h
      have h1 := hb2 h
      rw [show headW (a :: b :: rest) = weight a from rfl] at h1
      exact h1
    rcases List.mem_cons.1 htx with rfl | htx2
    · -- tx = a
      rcases List.mem_cons.1 hty with rfl | hty2
      · exact absurd hyty hyntx
      · rcases List.mem_cons.1 hty2 with rfl | hty3
        · -- JOIN: x in a, y in b
          exact Or.inl ⟨HTree.node tx ty, hNmem, dx + 1, dy + 1,
            cdepth_node_left hdx, cdepth_node_right hyntx hdy, Nat.succ_le_succ hle⟩
        · -- x-step: x in a (merged), y in rest
          have htyw : weight tx ≤ weight ty := hab.trans (hbrest ty hty3)
          have hlt : dx + 1 ≤ dy := by
            rcases Nat.lt_or_ge dx dy with h | h
            · omega
            · have hdyx : dy = dx := by omega
              have := heq hdyx
              omega
          refine Or.inr ⟨HTree.node tx b, hNmem, ty, hrest_mem ty hty3, dx + 1, dy,
            cdepth_node_left hdx, hdy, ?_, hxnty, hlt, ?_, ?_⟩
          · intro hy
            rcases List.mem_append.1 hy with hy | hy
            · exact hdar ty hty3 y hy hyty
            · exact hdbr ty hty3 y hy hyty
          · intro hdyeq
            have h1 := hb2w hdyeq
            rw [show weight (HTree.node tx b) = weight tx + weight b from rfl]
            omega
          · intro hdyeq
            have hint : ∃ l r, ty = HTree.node l r := node_of_cdepth_pos hdy (by omega)
            have hwty : weight ty ≤ weight tx + weight b := hw ty (by simp [hty3]) hint
            rw [show weight (HTree.node tx b) = weight tx + weight b from rfl]
            omega
    · rcases List.mem_cons.1 htx2 with rfl | htx3
      · -- tx = b
        have hxa : x ∉ chars a := fun hxa => hdab x hxa hxtx
        rcases List.mem_cons.1 hty with rfl | hty2
        · -- JOIN: x in b, y in a
          exact Or.inl ⟨HTree.node ty tx, hNmem, dx + 1, dy + 1,
            cdepth_node_right hxnty hdx, cdepth_node_left hdy, Nat.succ_le_succ hle⟩
        · rcases List.mem_cons.1 hty2 with rfl | hty3
          · exact absurd hyty hyntx
          · -- x-step: x in b (merged), y in rest
            have htyw : weight tx ≤ weight ty := hbrest ty hty3
            have hlt : dx + 1 ≤ dy := by
              rcases Nat.lt_or_ge dx dy with h | h
              · omega
              · have hdyx : dy = dx := by omega
                have := heq hdyx
                omega
            refine Or.inr ⟨HTree.node a tx, hNmem, ty, hrest_mem ty hty3, dx + 1, dy,
              cdepth_node_right hxa hdx, hdy, ?_, hxnty, hlt, ?_, ?_⟩
            · intro hy
              rcases List.mem_append.1 hy with hy | hy
              · exact hdar ty hty3 y hy hyty
              · exact hdbr ty hty3 y hy hyty
            · intro hdyeq
              have h1 := hb2w hdyeq
              rw [show weight (HTree.node a tx) = weight a + weight tx from rfl]
              omega
            · intro hdyeq
              have hint : ∃ l r, ty = HTree.node l r := node_of_cdepth_pos hdy (by omega)
              have hwty : weight ty ≤ weight a + weight tx := hw ty (by simp [hty3]) hint
              rw [show weight (HTree.node a tx) = weight a + weight tx from rfl]
              omega
      · -- tx ∈ rest
        rcases List.mem_cons.1 hty with rfl | hty2
        · -- y-step: y in a (merged), x in rest
          refine Or.inr ⟨tx, hrest_mem tx htx3, HTree.node ty b, hNmem, dx, dy + 1,
            hdx, cdepth_node_left hdy, hyntx, ?_, by omega, ?_, ?_⟩
          · intro hxmem
            rcases List.mem_append.1 hxmem with hxmem | hxmem
            · exact hxnty hxmem
            · exact hdbr tx htx3 x hxmem hxtx
          · intro h
            omega
          · intro h
            have hdyx : dy = dx := by omega
            have h3 := heq hdyx
            rw [show weight (HTree.node ty b) = weight ty + weight b from rfl]
            omega
        · rcases List.mem_cons.1 hty2 with rfl | hty3
          · -- y-step: y in b (merged), x in rest
            have hya : y ∉ chars a := fun hya => hdab y hya hyty
            refine Or.inr ⟨tx, hrest_mem tx htx3, HTree.node a ty, hNmem, dx, dy + 1,
              hdx, cdepth_node_right hya hdy, hyntx, ?_, by omega, ?_, ?_⟩
            · intro hxmem
              rcases List.mem_append.1 hxmem with hxmem | hxmem
              · exact hdar tx htx3 x hxmem hxtx
              · exact hxnty hxmem
            · intro h
              omega
            · intro h
              have hdyx : dy = dx := by omega
              have h3 := heq hdyx
              rw [show weight (HTree.node a ty) = weight a + weight ty from rfl]
              omega
          · -- both in rest
            refine Or.inr ⟨tx, hrest_mem tx htx3, ty, hrest_mem ty hty3, dx, dy,
              hdx, hdy, hyntx, hxnty, hle, heq, ?_⟩
            intro h
            have h1 := hb2w h
            omega

end Huffman

namespace Huffman

lemma hmerge_nodup : ∀ (fuel : Nat) (q : List HTree) (t : HTree),
    (∀ u ∈ q, (chars u).Nodup) → DisjQ q → hmerge fuel q = some t →
    (chars t).Nodup := by
  intro fuel
  induction fuel with
  | zero =>
      intro q t hnd hd ht
      match q with
      | [] => simp [hmerge] at ht
      | [u] =>
          have ht2 : some u = some t := ht
          obtain rfl := Option.some.inj ht2
          exact hnd u (by simp)
      | a :: b :: rest => simp [hmerge] at ht
  | succ f ih =>
      intro q t hnd hd ht
      match q with
      | [] => simp [hmerge] at ht
      | [u] =>
          have ht2 : some u = some t := ht
          obtain rfl := Option.some.inj ht2
          exact hnd u (by simp)
      | a :: b :: rest =>
          exact ih _ t (step_nodup_chars a b rest hnd hd) (step_disj a b rest hd) ht

lemma hmerge_pairInv_final (x y : Char) : ∀ (fuel : Nat) (q : List HTree),
    List.Sorted wle q → (∀ t ∈ q, posTree t) → DisjQ q → wInv q → pairInv x y q →
    ∀ t, hmerge fuel q = some t →
    ∃ dx dy, cdepth x t = some dx ∧ cdepth y t = some dy ∧ dx ≤ dy := by
  have hsingle : ∀ t : HTree, pairInv x y [t] →
      ∃ dx dy, cdepth x t = some dx ∧ cdepth y t = some dy ∧ dx ≤ dy := by
    intro t hpi
    rcases hpi with ⟨t0, ht0, dx, dy, hdx, hdy, hle⟩ |
      ⟨tx, htx, ty, hty, dx, dy, hdx, hdy, hyntx, _, _, _, _⟩
    · have ht0t : t0 = t := by simpa using ht0
      subst ht0t
      exact ⟨dx, dy, hdx, hdy, hle⟩
    · have htxt : tx = t := by simpa using htx
      have htyt : ty = t := by simpa using hty
      subst htxt
      subst htyt
      exact absurd (mem_of_cdepth_some hdy) hyntx
  intro fuel
  induction fuel with
  | zero =>
      intro q hs hpos hd hw hpi t ht
      match q with
      | [] => simp [hmerge] at ht
      | [u] =>
          have ht2 : some u = some t := ht
          obtain rfl := Option.some.inj ht2
          exact hsingle u hpi
      | a :: b :: rest => simp [hmerge] at ht
  | succ f ih =>
      intro q hs hpos hd hw hpi t ht
      match q with
      | [] => simp [hmerge] at ht
      | [u] =>
          have ht2 : some u = some t := ht
          obtain rfl := Option.some.inj ht2
          exact hsingle u hpi
      | a :: b :: rest =>
          exact ih _ (step_sorted a b rest hs) (step_pos a b rest hpos)
            (step_disj a b rest hd) (step_winv a b rest hs hw)
            (step_pairInv x y a b rest hs hpos hd hw hpi) t ht

lemma genCodes_length (t : HTree) :
    ∀ (acc : List Char) (c : Char) (p : List Char) (d : Nat),
      (chars t).Nodup → (c, p) ∈ generateHuffmanCodes t acc → cdepth c t = some d →
      p.length = acc.length + d := by
  induction t with
  | leaf c0 f =>
      intro acc c p d _ hp hd
      simp only [generateHuffmanCodes, List.mem_singleton, Prod.mk.injEq] at hp
      have hd0 : d = 0 := cdepth_leaf_eq_zero hd
      rw [hp.2, hd0]
      omega
  | node l r ihl ihr =>
      intro acc c p d hnd hp hd
      have hnd' : (chars l ++ chars r).Nodup := hnd
      rw [List.nodup_append] at hnd'
      obtain ⟨hndl, hndr, hdisj⟩ := hnd'
      simp only [generateHuffmanCodes, List.mem_append] at hp
      rcases hp with hp | hp
      · have hcl : c ∈ chars l := by
          rw [← genCodes_keys l (acc ++ ['0'])]
          exact List.mem_map_of_mem Prod.fst hp
        obtain ⟨d', hd'⟩ := cdepth_some_of_mem hcl
        have hdn : cdepth c (HTree.node l r) = some (d' + 1) := cdepth_node_left hd'
        rw [hd] at hdn
        have hdd : d = d' + 1 := Option.some.inj hdn
        have ihres := ihl (acc ++ ['0']) c p d' hndl hp hd'
        simp only [List.length_append, List.length_singleton] at ihres
        omega
      · have hcr : c ∈ chars r := by
          rw [← genCodes_keys r (acc ++ ['1'])]
          exact List.mem_map_of_mem Prod.fst hp
        have hcl : c ∉ chars l := fun hc => hdisj hc hcr
        obtain ⟨d', hd'⟩ := cdepth_some_of_mem hcr
        have hdn : cdepth c (HTree.node l r) = some (d' + 1) := cdepth_node_right hcl hd'
        rw [hd] at hdn
        have hdd : d = d' + 1 := Option.some.inj hdn
        have ihres := ihr (acc ++ ['1']) c p d' hndr hp hd'
        simp only [List.length_append, List.length_singleton] at ihres
        omega

lemma keys_nodup_val_unique : ∀ (fl : List (Char × Nat)),
    (fl.map Prod.fst).Nodup →
    ∀ {a : Char} {n m : Nat}, (a, n) ∈ fl → (a, m) ∈ fl → n = m := by
  intro fl
  induction fl with
  | nil =>
      intro _ a n m hn _
      cases hn
  | cons p rest ih =>
      intro hnd a n m hn hm
      obtain ⟨d, k⟩ := p
      rw [List.map_cons, List.nodup_cons] at hnd
      rcases List.mem_cons.1 hn with h1 | h1 <;> rcases List.mem_cons.1 hm with h2 | h2
      · rw [Prod.mk.injEq] at h1 h2
        omega
      · rw [Prod.mk.injEq] at h1
        have hmem : a ∈ rest.map Prod.fst := List.mem_map_of_mem Prod.fst h2
        rw [h1.1] at hmem
        exact absurd hmem hnd.1
      · rw [Prod.mk.injEq] at h2
        have hmem : a ∈ rest.map Prod.fst := List.mem_map_of_mem Prod.fst h1
        rw [h2.1] at hmem
        exact absurd hmem hnd.1
      · exact ih hnd.2 h1 h2

end Huffman

namespace Huffman

lemma initial_pos (fl : List (Char × Nat)) (hpos : ∀ p ∈ fl, 0 < p.2) :
    ∀ t ∈ List.insertionSort wle (fl.map (fun p => HTree.leaf p.1 p.2)), posTree t := by
  intro t ht
  rw [List.mem_insertionSort, List.mem_map] at ht
  obtain ⟨p, hp, rfl⟩ := ht
  exact hpos p hp

lemma initial_disj (fl : List (Char × Nat)) (hnd : (fl.map Prod.fst).Nodup) :
    DisjQ (List.insertionSort wle (fl.map (fun p => HTree.leaf p.1 p.2))) := by
  have h1 : List.Pairwise (fun p q : Char × Nat => p.1 ≠ q.1) fl := by
    have h0 := hnd
    rw [List.Nodup, List.pairwise_map] at h0
    exact h0
  have h2 : List.Pairwise (fun s t : HTree => ∀ c ∈ chars s, c ∉ chars t)
      (fl.map (fun p => HTree.leaf p.1 p.2)) := by
    rw [List.pairwise_map]
    refine h1.imp ?_
    intro p q hpq c hc hq
    rw [show chars (HTree.leaf p.1 p.2) = [p.1] from rfl, List.mem_singleton] at hc
    rw [show chars (HTree.leaf q.1 q.2) = [q.1] from rfl, List.mem_singleton] at hq
    exact hpq (hc ▸ hq)
  exact List.Perm.pairwise (List.perm_insertionSort wle _).symm h2
    (fun hxy c hct hcs => hxy c hcs hct)

lemma initial_nodup_chars (fl : List (Char × Nat)) :
    ∀ t ∈ List.insertionSort wle (fl.map (fun p => HTree.leaf p.1 p.2)),
      (chars t).Nodup := by
  intro t ht
  rw [List.mem_insertionSort, List.mem_map] at ht
  obtain ⟨p, _, rfl⟩ := ht
  simp [chars]

lemma wInv_all_leaves (q : List HTree)
    (h : ∀ u ∈ q, ∃ c f, u = HTree.leaf c f) : wInv q := by
  match q with
  | [] => trivial
  | [u] => trivial
  | a :: b :: rest =>
      intro u hu hint
      obtain ⟨c, f, rfl⟩ := h u hu
      obtain ⟨l, r, hlr⟩ := hint
      simp at hlr

lemma initial_winv (fl : List (Char × Nat)) :
    wInv (List.insertionSort wle (fl.map (fun p => HTree.leaf p.1 p.2))) := by
  refine wInv_all_leaves _ ?_
  intro u hu
  rw [List.mem_insertionSort, List.mem_map] at hu
  obtain ⟨p, _, rfl⟩ := hu
  exact ⟨p.1, p.2, rfl⟩

lemma initial_pairInv (fl : List (Char × Nat)) (hnd : (fl.map Prod.fst).Nodup)
    (x y : Char) (fx fy : Nat) (hx : (x, fx) ∈ fl) (hy : (y, fy) ∈ fl)
    (hlt : fy < fx) :
    pairInv x y (List.insertionSort wle (fl.map (fun p => HTree.leaf p.1 p.2))) := by
  have hxy : x ≠ y := by
    intro h
    subst h
    have := keys_nodup_val_unique fl hnd hx hy
    omega
  refine Or.inr ⟨HTree.leaf x fx, ?_, HTree.leaf y fy, ?_, 0, 0, ?_, ?_, ?_, ?_,
    Nat.le_refl 0, ?_, ?_⟩
  · rw [List.mem_insertionSort, List.mem_map]
    exact ⟨(x, fx), hx, rfl⟩
  · rw [List.mem_insertionSort, List.mem_map]
    exact ⟨(y, fy), hy, rfl⟩
  · simp [cdepth]
  · simp [cdepth]
  · intro hmem
    rw [show chars (HTree.leaf x fx) = [x] from rfl, List.mem_singleton] at hmem
    exact hxy hmem.symm
  · intro hmem
    rw [show chars (HTree.leaf y fy) = [y] from rfl, List.mem_singleton] at hmem
    exact hxy hmem
  · intro _
    exact hlt
  · intro h
    omega

/-- C6: the weighted-length property of the produced code map: for a
frequency table with duplicate-free keys and positive counts, if symbol `a`
has strictly greater frequency than symbol `b`, then `a`'s code in the map
generated from the built tree is no longer than `b`'s. -/
theorem c6_weighted_code_length (fl : List (Char × Nat))
    (hnd : (fl.map Prod.fst).Nodup)
    (hpos : ∀ p ∈ fl, 0 < p.2)
    (t : HTree) (hbuild : buildHuffmanTree fl = some t)
    (a b : Char) (fa fb : Nat) (ca cb : List Char)
    (hfa : (a, fa) ∈ fl) (hfb : (b, fb) ∈ fl)
    (hca : (a, ca) ∈ generateHuffmanCodes t [])
    (hcb : (b, cb) ∈ generateHuffmanCodes t [])
    (hlt : fb < fa) :
    ca.length ≤ cb.length := by
  have hbuild' :
      hmerge (List.insertionSort wle (fl.map (fun p => HTree.leaf p.1 p.2))).length
        (List.insertionSort wle (fl.map (fun p => HTree.leaf p.1 p.2))) = some t := hbuild
  have hposq := initial_pos fl hpos
  have hdq := initial_disj fl hnd
  have hwq := initial_winv fl
  have hndc := initial_nodup_chars fl
  have hpi := initial_pairInv fl hnd a b fa fb hfa hfb hlt
  obtain ⟨dx, dy, hdx, hdy, hle⟩ := hmerge_pairInv_final a b _ _
    (List.sorted_insertionSort wle _) hposq hdq hwq hpi t hbuild'
  have hndt : (chars t).Nodup := hmerge_nodup _ _ t hndc hdq hbuild'
  have hla := genCodes_length t [] a ca dx hndt hca hdx
  have hlb := genCodes_length t [] b cb dy hndt hcb hdy
  simp only [List.length_nil] at hla hlb
  omega

/-- Witness for C6 on the table {a: 2, b: 1}: 'a' (frequency 2) receives
code "1" and 'b' (frequency 1) receives code "0", of equal length. -/
theorem c6_witness : (['1'] : List Char).length ≤ (['0'] : List Char).length :=
  c6_weighted_code_length [('a', 2), ('b', 1)] (by decide) (by decide)
    (.node (.leaf 'b' 1) (.leaf 'a' 2)) rfl
    'a' 'b' 2 1 ['1'] ['0'] (by decide) (by decide) (by decide) (by decide) (by decide)

end Huffman
